import Mathlib

/-
Verification of the panda-datasets resumable paper-metadata pipeline
(`base_fetcher.py` and the per-venue fetchers).

The Python code is shallowly embedded: strings become `String`/`List Char`,
record dicts become structures with `Option` fields (a missing key or a
stored `None` is `none`), the network becomes an explicit oracle, and the
durable checkpoint file becomes an `Option String` (its textual content, or
`none` when the file does not exist).  The regular expressions used by the
code are deterministic (every greedy sub-pattern is followed by a character
it can never consume), so they are embedded as direct recursive scanners.
-/

/-! ## Character classes and literal fragments of the classifier regexes -/

/-- The class `[a-zA-Z0-9_-]` (owner segment of the repo patterns in
`BaseFetcher.is_valid_repo`). -/
def orgChar (c : Char) : Bool :=
  c.isAlpha || c.isDigit || c == '_' || c == '-'

/-- The class `[a-zA-Z0-9_.-]` (repository segment of the repo patterns). -/
def repoChar (c : Char) : Bool :=
  orgChar c || c == '.'

/-- The literal `http` that opens every pattern. -/
def httpLit : List Char := ['h', 't', 't', 'p']

/-- The literal `://` following the (optional-`s`) scheme. -/
def sepLit : List Char := [':', '/', '/']

/-- Host literal `github.com/` of the first pattern. -/
def githubHost : List Char := ['g', 'i', 't', 'h', 'u', 'b', '.', 'c', 'o', 'm', '/']

/-- Host literal `gitlab.com/` of the second pattern. -/
def gitlabHost : List Char := ['g', 'i', 't', 'l', 'a', 'b', '.', 'c', 'o', 'm', '/']

/-- Host literal `huggingface.co/spaces/` of the third pattern. -/
def hfSpacesHost : List Char :=
  ['h', 'u', 'g', 'g', 'i', 'n', 'g', 'f', 'a', 'c', 'e', '.', 'c', 'o', '/',
   's', 'p', 'a', 'c', 'e', 's', '/']

/-- Host literal `huggingface.co/` of the fourth pattern. -/
def hfHost : List Char :=
  ['h', 'u', 'g', 'g', 'i', 'n', 'g', 'f', 'a', 'c', 'e', '.', 'c', 'o', '/']

/-- Case-sensitive literal matching: consume `lit` from the front of `cs`,
returning the remainder (as in `re.match` of a literal). -/
def dropLit : List Char → List Char → Option (List Char)
  | [], cs => some cs
  | _ :: _, [] => none
  | l :: lt, c :: ct => if c = l then dropLit lt ct else none

/-- Consume an optional single character `x` (the `s?` of `https?`).
Deterministic: in all four patterns the character after the optional `s`
is `:`, which is never `s`, so greedy matching needs no backtracking. -/
def dropOptChar (x : Char) : List Char → List Char
  | [] => []
  | c :: t => if c = x then t else c :: t

/-- Python `str.lower` on the ASCII strings handled here. -/
def pyLower (s : String) : String := String.mk (s.toList.map Char.toLower)

/-- Substring test `needle` begins `hay` (used to implement Python `in`). -/
def startsWithList : List Char → List Char → Bool
  | [], _ => true
  | _ :: _, [] => false
  | a :: as, b :: bs => (a == b) && startsWithList as bs

/-- Python `needle in hay` on strings, as lists of characters. -/
def hasSub (needle : List Char) : List Char → Bool
  | [] => needle.isEmpty
  | c :: rest => startsWithList needle (c :: rest) || hasSub needle rest

/-! ## `BaseFetcher.is_valid_repo` -/

/-- The deny-list of `BaseFetcher.is_valid_repo` (checked, lowercased, by
substring containment). -/
def rejectsList : List String :=
  ["huggingface.co/huggingface",
   "huggingface.co/docs",
   "huggingface.co/blog",
   "huggingface.co/join",
   "huggingface.co/pricing",
   "github.com/github",
   "github.com/features",
   "github.com/explore",
   "/arxiv."]

/-- The generic owner names rejected by `BaseFetcher.is_valid_repo`. -/
def genericOrgs : List String :=
  ["docs", "blog", "api", "hub", "join", "huggingface"]

/-- One anchored pattern
`^https?://<host>/([a-zA-Z0-9_-]+)/([a-zA-Z0-9_.-]+)(?:/|$)` applied with
`re.match`; returns the two capture groups.  The greedy owner run must be
followed by `/` (not an owner character) and the greedy repository run by
`/` or end of string (not a repository character), so maximal munch is
exact. -/
def matchOwnerRepo (hostLit : List Char) (cs : List Char) : Option (String × String) :=
  match dropLit httpLit cs with
  | none => none
  | some r1 =>
    match dropLit sepLit (dropOptChar 's' r1) with
    | none => none
    | some r3 =>
      match dropLit hostLit r3 with
      | none => none
      | some r4 =>
        let org := r4.takeWhile orgChar
        let r5 := r4.dropWhile orgChar
        if org = [] then none
        else
          match r5 with
          | [] => none
          | c :: r6 =>
            if c = '/' then
              let repo := r6.takeWhile repoChar
              let r7 := r6.dropWhile repoChar
              if repo = [] then none
              else
                match r7 with
                | [] => some (String.mk org, String.mk repo)
                | c2 :: _ => if c2 = '/' then some (String.mk org, String.mk repo) else none
            else none

/-- The four patterns of `is_valid_repo`, tried in source order; the first
match wins. -/
def matchPatterns (cs : List Char) : Option (String × String) :=
  match matchOwnerRepo githubHost cs with
  | some p => some p
  | none =>
    match matchOwnerRepo gitlabHost cs with
    | some p => some p
    | none =>
      match matchOwnerRepo hfSpacesHost cs with
      | some p => some p
      | none => matchOwnerRepo hfHost cs

/-- `BaseFetcher.is_valid_repo`: deny-list rejection on the lowercased URL,
then the owner/repo shape with generic owner names rejected. -/
def is_valid_repo (url : String) : Bool :=
  if url = "" then false
  else if rejectsList.any (fun r => hasSub r.toList (pyLower url).toList) then false
  else
    match matchPatterns url.toList with
    | some (org, _) => ! genericOrgs.contains (pyLower org)
    | none => false

/-! ## `BaseFetcher.extract_code_url` -/

/-- The class `[^\s<>"')\]]` of the candidate-URL patterns in
`extract_code_url` (ASCII whitespace and the six listed delimiters are
excluded). -/
def candChar (c : Char) : Bool :=
  !(c == ' ' || c == '\t' || c == '\n' || c == '\r' || c == '\x0b' || c == '\x0c' ||
    c == '<' || c == '>' || c == Char.ofNat 34 || c == Char.ofNat 39 ||
    c == ')' || c == ']')

/-- Case-insensitive literal consumption (the candidate patterns run under
`re.IGNORECASE`). -/
def dropLitCI : List Char → List Char → Option (List Char)
  | [], cs => some cs
  | _ :: _, [] => none
  | l :: lt, c :: ct => if c.toLower = l.toLower then dropLitCI lt ct else none

/-- Case-insensitive optional `s` of `https?`. -/
def dropOptCharCI (x : Char) : List Char → List Char
  | [] => []
  | c :: t => if c.toLower = x.toLower then t else c :: t

/-- Try to match one candidate `https?://<host><candChar>+` (case-insensitive)
at the head of `cs`; returns the length of the match. -/
def tryMatchCand (hostLit : List Char) (cs : List Char) : Option Nat :=
  match dropLitCI httpLit cs with
  | none => none
  | some r1 =>
    match dropLitCI sepLit (dropOptCharCI 's' r1) with
    | none => none
    | some r3 =>
      match dropLitCI hostLit r3 with
      | none => none
      | some r4 =>
        let tl := r4.takeWhile candChar
        if tl = [] then none
        else some (cs.length - (r4.length - tl.length))

/-- `re.findall` of one candidate pattern: scan left to right, taking
non-overlapping matches, advancing one character after a failed position.
Each step shortens the text, so `fuel = length` never runs out. -/
def scanMatchesFuel (hostLit : List Char) : Nat → List Char → List (List Char)
  | 0, _ => []
  | f + 1, cs =>
    match tryMatchCand hostLit cs with
    | some n => cs.take n :: scanMatchesFuel hostLit f (cs.drop n)
    | none =>
      match cs with
      | [] => []
      | _ :: rest => scanMatchesFuel hostLit f rest

/-- All matches of one candidate pattern in `cs`. -/
def scanMatches (hostLit : List Char) (cs : List Char) : List (List Char) :=
  scanMatchesFuel hostLit cs.length cs

/-- `m.rstrip('.,;:')` applied to each candidate before validation. -/
def rstripPunct (cs : List Char) : List Char :=
  (cs.reverse.dropWhile (fun c => c == '.' || c == ',' || c == ';' || c == ':')).reverse

/-- The candidate loop of `extract_code_url`: first candidate (in pattern
order, then scan order) that passes `is_valid_repo` after punctuation
stripping. -/
def firstValid : List (List Char) → Option String
  | [] => none
  | m :: rest =>
    let url := String.mk (rstripPunct m)
    if is_valid_repo url then some url else firstValid rest

/-- `BaseFetcher.extract_code_url`: candidates for the three hosts in source
order, first valid one returned. -/
def extract_code_url (text : String) : Option String :=
  if text = "" then none
  else
    firstValid (scanMatches githubHost text.toList ++
                scanMatches gitlabHost text.toList ++
                scanMatches hfHost text.toList)

/-! ## `BaseFetcher.fetch_url` -/

/-- One network attempt: either an exception (transport error or timeout
raised by `urlopen`/`read`) or a response body, as raw bytes. -/
inductive NetResult where
  | exn : NetResult
  | ok : List Nat → NetResult
deriving DecidableEq, Repr

/-- The U+FFFD replacement character produced by `errors='replace'`. -/
def replChar : Char := Char.ofNat 0xFFFD

/-- `bytes.decode('utf-8', errors='replace')`: standard UTF-8 decoding where
every maximal invalid subpart becomes one replacement character.  Each step
consumes at least one byte, so `fuel = length` never runs out.  This
function is total: an undecodable body yields replacement characters, never
an exception. -/
def utf8DecodeFuel : Nat → List Nat → List Char
  | 0, _ => []
  | _, [] => []
  | f + 1, b :: rest =>
    if b ≤ 0x7F then Char.ofNat b :: utf8DecodeFuel f rest
    else if 0xC2 ≤ b ∧ b ≤ 0xDF then
      match rest with
      | [] => [replChar]
      | b2 :: rest2 =>
        if 0x80 ≤ b2 ∧ b2 ≤ 0xBF then
          Char.ofNat ((b - 0xC0) * 64 + (b2 - 0x80)) :: utf8DecodeFuel f rest2
        else replChar :: utf8DecodeFuel f rest
    else if 0xE0 ≤ b ∧ b ≤ 0xEF then
      let lo2 := if b = 0xE0 then 0xA0 else 0x80
      let hi2 := if b = 0xED then 0x9F else 0xBF
      match rest with
      | [] => [replChar]
      | b2 :: rest2 =>
        if lo2 ≤ b2 ∧ b2 ≤ hi2 then
          match rest2 with
          | [] => [replChar]
          | b3 :: rest3 =>
            if 0x80 ≤ b3 ∧ b3 ≤ 0xBF then
              Char.ofNat ((b - 0xE0) * 4096 + (b2 - 0x80) * 64 + (b3 - 0x80)) ::
                utf8DecodeFuel f rest3
            else replChar :: utf8DecodeFuel f rest2
        else replChar :: utf8DecodeFuel f rest
    else if 0xF0 ≤ b ∧ b ≤ 0xF4 then
      let lo2 := if b = 0xF0 then 0x90 else 0x80
      let hi2 := if b = 0xF4 then 0x8F else 0xBF
      match rest with
      | [] => [replChar]
      | b2 :: rest2 =>
        if lo2 ≤ b2 ∧ b2 ≤ hi2 then
          match rest2 with
          | [] => [replChar]
          | b3 :: rest3 =>
            if 0x80 ≤ b3 ∧ b3 ≤ 0xBF then
              match rest3 with
              | [] => [replChar]
              | b4 :: rest4 =>
                if 0x80 ≤ b4 ∧ b4 ≤ 0xBF then
                  Char.ofNat ((b - 0xF0) * 262144 + (b2 - 0x80) * 4096 +
                              (b3 - 0x80) * 64 + (b4 - 0x80)) :: utf8DecodeFuel f rest4
                else replChar :: utf8DecodeFuel f rest3
            else replChar :: utf8DecodeFuel f rest2
        else replChar :: utf8DecodeFuel f rest
    else replChar :: utf8DecodeFuel f rest

/-- Total UTF-8 decoding with replacement (`errors='replace'`). -/
def utf8DecodeReplace (bs : List Nat) : String :=
  String.mk (utf8DecodeFuel bs.length bs)

/-- Strict UTF-8 decodability (what `bytes.decode('utf-8')` without
`errors='replace'` would accept). -/
def utf8DecodableFuel : Nat → List Nat → Bool
  | 0, l => l.isEmpty
  | _, [] => true
  | f + 1, b :: rest =>
    if b ≤ 0x7F then utf8DecodableFuel f rest
    else if 0xC2 ≤ b ∧ b ≤ 0xDF then
      match rest with
      | [] => false
      | b2 :: rest2 => (0x80 ≤ b2 ∧ b2 ≤ 0xBF : Bool) && utf8DecodableFuel f rest2
    else if 0xE0 ≤ b ∧ b ≤ 0xEF then
      let lo2 := if b = 0xE0 then 0xA0 else 0x80
      let hi2 := if b = 0xED then 0x9F else 0xBF
      match rest with
      | [] => false
      | b2 :: rest2 =>
        match rest2 with
        | [] => false
        | b3 :: rest3 =>
          (lo2 ≤ b2 ∧ b2 ≤ hi2 : Bool) && (0x80 ≤ b3 ∧ b3 ≤ 0xBF : Bool) &&
            utf8DecodableFuel f rest3
    else if 0xF0 ≤ b ∧ b ≤ 0xF4 then
      let lo2 := if b = 0xF0 then 0x90 else 0x80
      let hi2 := if b = 0xF4 then 0x8F else 0xBF
      match rest with
      | [] => false
      | b2 :: rest2 =>
        match rest2 with
        | [] => false
        | b3 :: rest3 =>
          match rest3 with
          | [] => false
          | b4 :: rest4 =>
            (lo2 ≤ b2 ∧ b2 ≤ hi2 : Bool) && (0x80 ≤ b3 ∧ b3 ≤ 0xBF : Bool) &&
              (0x80 ≤ b4 ∧ b4 ≤ 0xBF : Bool) && utf8DecodableFuel f rest4
    else false

/-- A byte sequence is strictly decodable as UTF-8. -/
def utf8Decodable (bs : List Nat) : Bool :=
  utf8DecodableFuel bs.length bs

/-- The attempt loop of `BaseFetcher.fetch_url`, starting at attempt index
`att` with `rem` attempts remaining.  A raised exception is caught and the
next attempt begins (after a 2-unit sleep, not modelled); a received body is
decoded with replacement and returned at once. -/
def fetchFrom (net : Nat → NetResult) : Nat → Nat → Option String
  | _, 0 => none
  | att, rem + 1 =>
    match net att with
    | NetResult.ok body => some (utf8DecodeReplace body)
    | NetResult.exn => fetchFrom net (att + 1) rem

/-- `BaseFetcher.fetch_url url retries` against the network oracle `net`
(`net a` is the outcome of attempt `a` for this URL). -/
def fetch_url (net : Nat → NetResult) (retries : Nat) : Option String :=
  fetchFrom net 0 retries

/-! ## Records, checkpoints, and the checkpoint file -/

/-- A paper stub as produced by `extract_papers` (both producers always set
both keys). -/
structure Stub where
  title : String
  page_url : String
deriving DecidableEq, Repr

/-- A paper record dict.  A field is `none` when the key is missing from the
dict or stores Python `None`. -/
structure PRec where
  title : Option String := none
  page_url : Option String := none
  pdf_url : Option String := none
  arxiv_url : Option String := none
  code_url : Option String := none
  code_mentioned : Option Bool := none
  error : Option String := none
deriving DecidableEq, Repr

/-- The spec's terminal status of a record. -/
inductive RecStatus where
  | ok : RecStatus
  | fetch_failed : RecStatus
deriving DecidableEq, Repr

/-- Readout of the spec's `status` field from a record dict: the fetch-failed
outcome is the one marked by the `error` entry (cf. the fetch-failure branch
of `process_paper`). -/
def PRec.status (p : PRec) : RecStatus :=
  if p.error.isSome then RecStatus.fetch_failed else RecStatus.ok

/-- The checkpoint dict `{'processed': [...], 'last_index': n}`. -/
structure Progress where
  processed : List PRec
  last_index : Nat
deriving DecidableEq, Repr

/-- The successive durable contents of the checkpoint file while
`BaseFetcher.save_progress` runs: `open(self.progress_file, 'w')` truncates
the file at once, then the serialized text `data` is written left to right.
`old` is the content before the call (`none`: no file).  Element `k+1` of
the list is the durable content if the process dies after `k` characters
have reached the file. -/
def save_progress_states (old : Option String) (data : String) : List (Option String) :=
  old :: some "" ::
    (List.range data.length).map (fun k => some (String.mk (data.toList.take (k + 1))))

/-! ## `BaseFetcher.load_progress` and the JSON load it performs -/

/-- The whitespace `json.load` skips between tokens. -/
def jsonWs (c : Char) : Bool :=
  c == ' ' || c == '\t' || c == '\n' || c == '\r'

/-- Hexadecimal digit value (for JSON `\uXXXX` escapes). -/
def hexVal (c : Char) : Option Nat :=
  if '0' ≤ c ∧ c ≤ '9' then some (c.toNat - '0'.toNat)
  else if 'a' ≤ c ∧ c ≤ 'f' then some (c.toNat - 'a'.toNat + 10)
  else if 'A' ≤ c ∧ c ≤ 'F' then some (c.toNat - 'A'.toNat + 10)
  else none

/-- A parsed JSON document.  Numbers keep their source numeral: the
checkpoint serializer only emits integers, so no arithmetic on parsed
numbers is needed. -/
inductive Json where
  | null : Json
  | jbool : Bool → Json
  | num : String → Json
  | str : String → Json
  | arr : List Json → Json
  | obj : List (String × Json) → Json

/-- Body of a JSON string after the opening quote: ordinary characters
(an unescaped control character is rejected, as in the module's default
strict mode) and the escape sequences of the JSON grammar; returns the
decoded characters and the input after the closing quote.  A `\uXXXX`
escape is decoded as one code unit (the checkpoint writer emits none). -/
def parseStringBody : Nat → List Char → Option (List Char × List Char)
  | 0, _ => none
  | _, [] => none
  | f + 1, c :: rest =>
    if c = Char.ofNat 34 then some ([], rest)
    else if c = '\\' then
      match rest with
      | [] => none
      | e :: rest2 =>
        if e = Char.ofNat 34 then
          (parseStringBody f rest2).map (fun p => (Char.ofNat 34 :: p.1, p.2))
        else if e = '\\' then (parseStringBody f rest2).map (fun p => ('\\' :: p.1, p.2))
        else if e = '/' then (parseStringBody f rest2).map (fun p => ('/' :: p.1, p.2))
        else if e = 'b' then (parseStringBody f rest2).map (fun p => ('\x08' :: p.1, p.2))
        else if e = 'f' then (parseStringBody f rest2).map (fun p => ('\x0c' :: p.1, p.2))
        else if e = 'n' then (parseStringBody f rest2).map (fun p => ('\n' :: p.1, p.2))
        else if e = 'r' then (parseStringBody f rest2).map (fun p => ('\r' :: p.1, p.2))
        else if e = 't' then (parseStringBody f rest2).map (fun p => ('\t' :: p.1, p.2))
        else if e = 'u' then
          match rest2 with
          | h1 :: h2 :: h3 :: h4 :: rest3 =>
            match hexVal h1, hexVal h2, hexVal h3, hexVal h4 with
            | some v1, some v2, some v3, some v4 =>
              (parseStringBody f rest3).map
                (fun p => (Char.ofNat (v1 * 4096 + v2 * 256 + v3 * 16 + v4) :: p.1, p.2))
            | _, _, _, _ => none
          | _ => none
        else none
    else if c.toNat < 32 then none
    else (parseStringBody f rest).map (fun p => (c :: p.1, p.2))

/-- The optional exponent part `[eE][-+]?\d+` of a JSON number; returns the
matched characters (empty if absent) and the rest. -/
def parseExpPart (cs : List Char) : List Char × List Char :=
  match cs with
  | [] => ([], cs)
  | e :: t =>
    if e = 'e' ∨ e = 'E' then
      let sp : List Char × List Char :=
        match t with
        | '+' :: t2 => (['+'], t2)
        | '-' :: t2 => (['-'], t2)
        | _ => ([], t)
      let digs := sp.2.takeWhile Char.isDigit
      if digs = [] then ([], cs)
      else (e :: sp.1 ++ digs, sp.2.dropWhile Char.isDigit)
    else ([], cs)

/-- The optional fraction `\.\d+` and exponent of a JSON number. -/
def parseFracExp (cs : List Char) : List Char × List Char :=
  let fr : List Char × List Char :=
    match cs with
    | '.' :: t =>
      let digs := t.takeWhile Char.isDigit
      if digs = [] then ([], cs)
      else ('.' :: digs, t.dropWhile Char.isDigit)
    | _ => ([], cs)
  let ex := parseExpPart fr.2
  (fr.1 ++ ex.1, ex.2)

/-- The JSON number `-?(?:0|[1-9]\d*)(?:\.\d+)?(?:[eE][-+]?\d+)?` at the
head of the input; returns the numeral and the rest. -/
def parseNumber (cs : List Char) : Option (List Char × List Char) :=
  let sp : List Char × List Char :=
    match cs with
    | '-' :: t => (['-'], t)
    | _ => ([], cs)
  match sp.2 with
  | [] => none
  | d :: t =>
    if d = '0' then
      let fe := parseFracExp t
      some (sp.1 ++ '0' :: fe.1, fe.2)
    else if d.isDigit then
      let digits := t.takeWhile Char.isDigit
      let t2 := t.dropWhile Char.isDigit
      let fe := parseFracExp t2
      some (sp.1 ++ d :: digits ++ fe.1, fe.2)
    else none

mutual

/-- One JSON value, leading whitespace allowed: object, array, string,
number, or the `true`/`false`/`null` literals (the `NaN`/`Infinity`
extensions are not modelled; the checkpoint writer never emits them).
Each fuel unit enters one parsing state and every few states consume at
least one character, so ample fuel makes the result fuel-independent. -/
def parseJsonVal : Nat → List Char → Option (Json × List Char)
  | 0, _ => none
  | f + 1, cs =>
    match cs.dropWhile jsonWs with
    | [] => none
    | c :: rest =>
      if c = Char.ofNat 34 then
        (parseStringBody f rest).map (fun p => (Json.str (String.mk p.1), p.2))
      else if c = Char.ofNat 123 then
        (parseObjItems f rest).map (fun p => (Json.obj p.1, p.2))
      else if c = '[' then
        (parseArrItems f rest).map (fun p => (Json.arr p.1, p.2))
      else if c = 't' then
        match dropLit ['r', 'u', 'e'] rest with
        | some r => some (Json.jbool true, r)
        | none => none
      else if c = 'f' then
        match dropLit ['a', 'l', 's', 'e'] rest with
        | some r => some (Json.jbool false, r)
        | none => none
      else if c = 'n' then
        match dropLit ['u', 'l', 'l'] rest with
        | some r => some (Json.null, r)
        | none => none
      else
        match parseNumber (c :: rest) with
        | some p => some (Json.num (String.mk p.1), p.2)
        | none => none

/-- Array items, positioned right after `[`: empty array or first value
then `parseArrRest`. -/
def parseArrItems : Nat → List Char → Option (List Json × List Char)
  | 0, _ => none
  | f + 1, cs =>
    match cs.dropWhile jsonWs with
    | ']' :: rest => some ([], rest)
    | _ =>
      match parseJsonVal f cs with
      | none => none
      | some (v, rest1) =>
        (parseArrRest f rest1).map (fun p => (v :: p.1, p.2))

/-- After one array item: `]` closes, `,` demands another item (so a
trailing comma is rejected, as in the module). -/
def parseArrRest : Nat → List Char → Option (List Json × List Char)
  | 0, _ => none
  | f + 1, cs =>
    match cs.dropWhile jsonWs with
    | ']' :: rest => some ([], rest)
    | ',' :: rest =>
      match parseJsonVal f rest with
      | none => none
      | some (v, rest1) =>
        (parseArrRest f rest1).map (fun p => (v :: p.1, p.2))
    | _ => none

/-- One `"key": value` member of an object. -/
def parseObjPair : Nat → List Char → Option ((String × Json) × List Char)
  | 0, _ => none
  | f + 1, cs =>
    match cs.dropWhile jsonWs with
    | q :: rest =>
      if q = Char.ofNat 34 then
        match parseStringBody f rest with
        | none => none
        | some (key, rest1) =>
          match rest1.dropWhile jsonWs with
          | ':' :: rest2 =>
            (parseJsonVal f rest2).map (fun p => ((String.mk key, p.1), p.2))
          | _ => none
      else none
    | [] => none

/-- Object members, positioned right after the opening brace. -/
def parseObjItems : Nat → List Char → Option (List (String × Json) × List Char)
  | 0, _ => none
  | f + 1, cs =>
    match cs.dropWhile jsonWs with
    | c :: rest =>
      if c = Char.ofNat 125 then some ([], rest)
      else
        match parseObjPair f cs with
        | none => none
        | some (kv, rest1) =>
          (parseObjRest f rest1).map (fun p => (kv :: p.1, p.2))
    | [] => none

/-- After one object member: the closing brace ends the object, `,` demands
another member. -/
def parseObjRest : Nat → List Char → Option (List (String × Json) × List Char)
  | 0, _ => none
  | f + 1, cs =>
    match cs.dropWhile jsonWs with
    | c :: rest =>
      if c = Char.ofNat 125 then some ([], rest)
      else if c = ',' then
        match parseObjPair f rest with
        | none => none
        | some (kv, rest1) =>
          (parseObjRest f rest1).map (fun p => (kv :: p.1, p.2))
      else none
    | [] => none

end

/-- `json.load` on the file text: one JSON document followed by nothing but
whitespace (otherwise the module raises `Extra data`); `none` models a
raised `JSONDecodeError`. -/
def parseJson (text : String) : Option Json :=
  match parseJsonVal (4 * text.length + 16) text.toList with
  | some (v, rest) => if rest.dropWhile jsonWs = [] then some v else none
  | none => none

/-- `BaseFetcher.load_progress`: the fresh dict
`{'processed': [], 'last_index': 0}` when the checkpoint file does not
exist, otherwise `json.load` of its content (`none`: the load raised); the
run loop then indexes the returned dict. -/
def load_progress (file : Option String) : Option Json :=
  match file with
  | none => some (Json.obj [("processed", Json.arr []), ("last_index", Json.num "0")])
  | some text => parseJson text

/-! ## `BaseFetcher.save_csv` -/

/-- `title.replace('"', '""')`: each embedded quote is doubled. -/
def escQuotes : List Char → List Char
  | [] => []
  | c :: r =>
    if c = Char.ofNat 34 then Char.ofNat 34 :: Char.ofNat 34 :: escQuotes r
    else c :: escQuotes r

/-- `.replace(',', ';')`: each comma becomes a semicolon. -/
def commaToSemi : List Char → List Char
  | [] => []
  | c :: r => if c = ',' then ';' :: commaToSemi r else c :: commaToSemi r

/-- The escaped title written to the CSV:
`p.get('title', '').replace('"', '""').replace(',', ';')`. -/
def titleEscaped (s : String) : List Char :=
  commaToSemi (escQuotes s.toList)

/-- `'yes' if code else ('maybe' if p.get('code_mentioned') else 'no')`,
where `code = p.get('code_url', '') or ''` (so a missing key, `None`, and
the empty string are all falsy). -/
def code_available (p : PRec) : String :=
  if (p.code_url.getD "") ≠ "" then "yes"
  else if p.code_mentioned.getD false then "maybe"
  else "no"

/-- One data row `f'"{title}",{pdf},{arxiv},{avail},{code}\n'`. -/
def csv_row (p : PRec) : String :=
  String.mk (Char.ofNat 34 :: titleEscaped (p.title.getD "") ++ [Char.ofNat 34, ',']) ++
    (p.pdf_url.getD "") ++ "," ++ (p.arxiv_url.getD "") ++ "," ++
    code_available p ++ "," ++ (p.code_url.getD "") ++ "\n"

/-- `BaseFetcher.save_csv`: header line plus one row per record. -/
def save_csv (papers : List PRec) : String :=
  "title,pdf_url,arxiv_url,code_available,code_url\n" ++
    String.join (papers.map csv_row)

/-! ## `BaseFetcher.run` -/

/-- The revalidation step of `run` applied to one stored record:
`if p.get('code_url') and not self.is_valid_repo(p['code_url']):
p['code_url'] = None`. -/
def revalidateRecord (p : PRec) : PRec :=
  match p.code_url with
  | none => p
  | some u => if u ≠ "" ∧ ¬ is_valid_repo u then { p with code_url := none } else p

/-- The final state of `run`: old entries are revalidated in place, every
stub from the cursor on is processed in order and appended, and the final
save stores `last_index = len(papers)`. -/
def run_result (pp : Stub → PRec) (papers : List Stub) (init : Progress) : Progress :=
  { processed := init.processed.map revalidateRecord ++ (papers.drop init.last_index).map pp,
    last_index := papers.length }

/-- The periodic checkpoints of the processing loop of `run`: after the
record at absolute index `i` is appended, the checkpoint
`{'processed': processed, 'last_index': i + 1}` is saved when
`(i + 1) % 10 == 0`.  `acc` is the in-memory `processed` list on loop
entry. -/
def runLoopSaves (pp : Stub → PRec) : List Stub → Nat → List PRec → List Progress
  | [], _, _ => []
  | s :: rest, i, acc =>
    (if (i + 1) % 10 = 0 then
        [{ processed := acc ++ [pp s], last_index := i + 1 }]
      else []) ++ runLoopSaves pp rest (i + 1) (acc ++ [pp s])

/-- Every durable checkpoint written by one call to `run`: the periodic
saves, then the unconditional final save. -/
def run_saves (pp : Stub → PRec) (papers : List Stub) (init : Progress) : List Progress :=
  let revd := init.processed.map revalidateRecord
  let rem := papers.drop init.last_index
  runLoopSaves pp rem init.last_index revd ++
    [{ processed := revd ++ rem.map pp, last_index := papers.length }]

/-! ## `CVPR2025Fetcher.process_paper` and `AAAI2025Fetcher.extract_papers` -/

/-- `CVPR2025Fetcher.BASE_URL`. -/
def cvprBase : String := "https://openaccess.thecvf.com"

/-- `CVPR2025Fetcher.process_paper` against the network oracle `net`
(`net url a` is the outcome of attempt `a` of a GET of `url`).  The page is
fetched with the default 3 retries; on failure the stub is returned with the
`error` marker and nothing else.  The success branch (metadata extraction
from the fetched page) is the collaborator `extract`. -/
def cvpr_process_paper (net : String → Nat → NetResult)
    (extract : String → Stub → PRec) (paper : Stub) : PRec :=
  match fetch_url (net (cvprBase ++ paper.page_url)) 3 with
  | none => { title := some paper.title, page_url := some paper.page_url,
              error := some "fetch failed" }
  | some html => extract html paper

/-- The title-deduplication loop closing `AAAI2025Fetcher.extract_papers`:
a paper is kept iff its title was not seen before, preserving order.
`seen` is the set of already-seen titles. -/
def dedupByTitle : List Stub → List String → List Stub
  | [], _ => []
  | p :: rest, seen =>
    if seen.contains p.title then dedupByTitle rest seen
    else p :: dedupByTitle rest (p.title :: seen)

/-! ## Statement helpers -/

/-- The scheme-and-host portion of a URL: the text before the third `/`
(for `scheme://host/path...` this is `scheme://host`). -/
def schemeHostAux : Nat → List Char → List Char
  | _, [] => []
  | k, c :: rest =>
    if c = '/' then
      if k = 0 then [] else c :: schemeHostAux (k - 1) rest
    else c :: schemeHostAux k rest

/-- The scheme-and-host portion of a URL string. -/
def schemeHost (url : String) : List Char :=
  schemeHostAux 2 url.toList

/-! ## Concrete instances used in witnesses and counterexamples -/

/-- A detail extractor that only records the stub title (used to instantiate
the abstract `process_paper` collaborator on concrete runs). -/
def ppX : Stub → PRec := fun s => { title := some s.title }

/-- A stub. -/
def stubA : Stub := { title := "Same Title", page_url := "page-one" }

/-- A second stub with the same title as `stubA`. -/
def stubB : Stub := { title := "Same Title", page_url := "page-two" }

/-- A stored record with only a title. -/
def prX : PRec := { title := some "X" }

/-- A one-stub listing. -/
def papersW : List Stub := [stubA]

/-- The final checkpoint of a completed run of `ppX` over `papersW`. -/
def ckptW : Progress := { processed := [ppX stubA], last_index := 1 }

/-- A network oracle on which every attempt raises. -/
def netExn : String → Nat → NetResult := fun _ _ => NetResult.exn

/-- A trivial success-branch extractor. -/
def extractNone : String → Stub → PRec := fun _ _ => {}

/-- A record with a valid stored repository URL and a title holding a comma. -/
def p1 : PRec := { title := some "a,b", code_url := some "https://github.com/acme/widget" }

/-- A 23-stub listing (covers two periodic flushes and the final flush). -/
def papers23 : List Stub :=
  (List.range 23).map (fun i => { title := toString i, page_url := toString i })

/-- A serialized checkpoint as `json.dump(..., indent=2)` writes it: the
durable content before an interrupted save. -/
def oldCkpt : String := "\x7b\n  \"processed\": [],\n  \"last_index\": 0\n\x7d"

/-- The serialized checkpoint an interrupted save was writing. -/
def newCkpt : String := "\x7b\n  \"processed\": [],\n  \"last_index\": 10\n\x7d"

/-! ## Lemmas about the classifier -/

/-- The candidate loop returns only URLs that pass `is_valid_repo`. -/
theorem firstValid_valid : ∀ (l : List (List Char)) (u : String),
    firstValid l = some u → is_valid_repo u = true := by
  intro l
  induction l with
  | nil => intro u h; simp [firstValid] at h
  | cons m rest ih =>
    intro u h
    simp only [firstValid] at h
    split at h
    · cases h; assumption
    · exact ih u h

/-- Helper behind claims C1 and C10: whatever `extract_code_url` returns
passes `is_valid_repo`. -/
theorem extract_code_url_valid_aux (text u : String)
    (h : extract_code_url text = some u) : is_valid_repo u = true := by
  unfold extract_code_url at h
  split at h
  · exact absurd h (by simp)
  · exact firstValid_valid _ u h

/-- A matched pattern forces the generic-owner rejection. -/
theorem generic_org_invalid (url org repo : String)
    (hm : matchPatterns url.toList = some (org, repo))
    (hg : genericOrgs.contains (pyLower org) = true) :
    is_valid_repo url = false := by
  unfold is_valid_repo
  by_cases h0 : url = ""
  · subst h0
    rw [show ("" : String).toList = [] from rfl,
        show matchPatterns ([] : List Char) = none from by decide] at hm
    simp at hm
  · simp only [if_neg h0]
    split
    · rfl
    · rw [hm]
      show (!genericOrgs.contains (pyLower org)) = false
      rw [hg]
      rfl

/-- A deny-list hit forces rejection, whatever the rest of the URL. -/
theorem reject_sub_invalid (url r : String) (hmem : r ∈ rejectsList)
    (h : hasSub r.toList (pyLower url).toList = true) :
    is_valid_repo url = false := by
  unfold is_valid_repo
  by_cases h0 : url = ""
  · simp [h0]
  · have hany : rejectsList.any (fun r => hasSub r.toList (pyLower url).toList) = true :=
      List.any_eq_true.mpr ⟨r, hmem, h⟩
    rw [if_neg h0, if_pos hany]

/-- A successful literal match decomposes the input. -/
theorem dropLit_eq : ∀ (lit cs r : List Char), dropLit lit cs = some r → cs = lit ++ r := by
  intro lit
  induction lit with
  | nil =>
    intro cs r h
    simp [dropLit] at h
    simp [h]
  | cons l lt ih =>
    intro cs r h
    cases cs with
    | nil => simp [dropLit] at h
    | cons c ct =>
      simp only [dropLit] at h
      split at h
      · rename_i hc
        subst hc
        simpa using ih ct r h
      · exact absurd h (by simp)

/-- The optional character either was or was not consumed. -/
theorem dropOptChar_shape (x : Char) (l : List Char) :
    l = dropOptChar x l ∨ l = x :: dropOptChar x l := by
  cases l with
  | nil => left; rfl
  | cons c t =>
    simp only [dropOptChar]
    split
    · rename_i hc
      subst hc
      right; rfl
    · left; rfl

/-- A URL accepted by one of the anchored patterns starts with
`http://<host>` or `https://<host>`. -/
theorem matchOwnerRepo_shape (hostLit cs : List Char) (pr : String × String)
    (h : matchOwnerRepo hostLit cs = some pr) :
    (∃ rest, cs = httpLit ++ sepLit ++ (hostLit ++ rest)) ∨
    (∃ rest, cs = httpLit ++ 's' :: (sepLit ++ (hostLit ++ rest))) := by
  unfold matchOwnerRepo at h
  split at h
  · exact absurd h (by simp)
  · rename_i r1 hh1
    split at h
    · exact absurd h (by simp)
    · rename_i r3 hh3
      split at h
      · exact absurd h (by simp)
      · rename_i r4 hh4
        have e1 := dropLit_eq _ _ _ hh1
        have e3 := dropLit_eq _ _ _ hh3
        have e4 := dropLit_eq _ _ _ hh4
        rcases dropOptChar_shape 's' r1 with h5 | h5
        · left
          exact ⟨r4, by rw [e1, h5, e3, e4, List.append_assoc]⟩
        · right
          exact ⟨r4, by rw [e1, h5, e3, e4]⟩

/-- Inversion of the pattern alternation. -/
theorem matchPatterns_inv (cs : List Char) (pr : String × String)
    (h : matchPatterns cs = some pr) :
    matchOwnerRepo githubHost cs = some pr ∨ matchOwnerRepo gitlabHost cs = some pr ∨
    matchOwnerRepo hfSpacesHost cs = some pr ∨ matchOwnerRepo hfHost cs = some pr := by
  unfold matchPatterns at h
  split at h
  · rename_i p h1
    exact Or.inl (h1.trans h)
  · rename_i h1
    split at h
    · rename_i p h2
      exact Or.inr (Or.inl (h2.trans h))
    · rename_i h2
      split at h
      · rename_i p h3
        exact Or.inr (Or.inr (Or.inl (h3.trans h)))
      · exact Or.inr (Or.inr (Or.inr h))

/-- `schemeHostAux` passes over slash-free text unchanged. -/
theorem schemeHostAux_noslash (xs : List Char) (hx : ∀ c ∈ xs, c ≠ '/') :
    ∀ (k : Nat) (rest : List Char),
      schemeHostAux k (xs ++ rest) = xs ++ schemeHostAux k rest := by
  induction xs with
  | nil => intro k rest; rfl
  | cons c t ih =>
    intro k rest
    have hc : c ≠ '/' := hx c (by simp)
    simp only [List.cons_append, schemeHostAux, if_neg hc]
    exact congrArg (List.cons c) (ih (fun d hd => hx d (by simp [hd])) k rest)

/-- `schemeHostAux` keeps a slash while the counter is positive. -/
theorem schemeHostAux_slash (k : Nat) (rest : List Char) :
    schemeHostAux (k + 1) ('/' :: rest) = '/' :: schemeHostAux k rest := by
  simp [schemeHostAux]

/-- `schemeHostAux` stops at the slash that exhausts the counter. -/
theorem schemeHostAux_stop (rest : List Char) : schemeHostAux 0 ('/' :: rest) = [] := by
  simp [schemeHostAux]

/-- The scheme-and-host portion of `http://<body>/<anything>` is
`http://<body>` (and the `https` variant likewise). -/
theorem schemeHostAux_http (body rest : List Char) (hb : ∀ c ∈ body, c ≠ '/') :
    schemeHostAux 2 (httpLit ++ sepLit ++ (body ++ '/' :: rest)) =
      httpLit ++ ':' :: '/' :: '/' :: body := by
  have h1 : ∀ c ∈ httpLit ++ [':'], c ≠ '/' := by decide
  calc schemeHostAux 2 (httpLit ++ sepLit ++ (body ++ '/' :: rest))
      = schemeHostAux 2 ((httpLit ++ [':']) ++ ('/' :: '/' :: (body ++ '/' :: rest))) := by
        simp [httpLit, sepLit]
    _ = (httpLit ++ [':']) ++ schemeHostAux 2 ('/' :: '/' :: (body ++ '/' :: rest)) :=
        schemeHostAux_noslash _ h1 _ _
    _ = (httpLit ++ [':']) ++ ('/' :: schemeHostAux 1 ('/' :: (body ++ '/' :: rest))) := by
        rw [schemeHostAux_slash]
    _ = (httpLit ++ [':']) ++ ('/' :: '/' :: schemeHostAux 0 (body ++ '/' :: rest)) := by
        rw [schemeHostAux_slash]
    _ = (httpLit ++ [':']) ++ ('/' :: '/' :: (body ++ schemeHostAux 0 ('/' :: rest))) := by
        rw [schemeHostAux_noslash _ hb]
    _ = (httpLit ++ [':']) ++ ('/' :: '/' :: (body ++ [])) := by rw [schemeHostAux_stop]
    _ = httpLit ++ ':' :: '/' :: '/' :: body := by simp

/-- The `https` variant of `schemeHostAux_http`. -/
theorem schemeHostAux_https (body rest : List Char) (hb : ∀ c ∈ body, c ≠ '/') :
    schemeHostAux 2 (httpLit ++ 's' :: (sepLit ++ (body ++ '/' :: rest))) =
      httpLit ++ 's' :: ':' :: '/' :: '/' :: body := by
  have h1 : ∀ c ∈ httpLit ++ ['s', ':'], c ≠ '/' := by decide
  calc schemeHostAux 2 (httpLit ++ 's' :: (sepLit ++ (body ++ '/' :: rest)))
      = schemeHostAux 2 ((httpLit ++ ['s', ':']) ++ ('/' :: '/' :: (body ++ '/' :: rest))) := by
        simp [httpLit, sepLit]
    _ = (httpLit ++ ['s', ':']) ++ schemeHostAux 2 ('/' :: '/' :: (body ++ '/' :: rest)) :=
        schemeHostAux_noslash _ h1 _ _
    _ = (httpLit ++ ['s', ':']) ++ ('/' :: '/' :: schemeHostAux 0 (body ++ '/' :: rest)) := by
        rw [schemeHostAux_slash, schemeHostAux_slash]
    _ = (httpLit ++ ['s', ':']) ++ ('/' :: '/' :: (body ++ [])) := by
        rw [schemeHostAux_noslash _ hb, schemeHostAux_stop]
    _ = httpLit ++ 's' :: ':' :: '/' :: '/' :: body := by simp

/-- A URL passing `is_valid_repo` matched one of the four patterns. -/
theorem valid_implies_match (url : String) (h : is_valid_repo url = true) :
    ∃ pr, matchPatterns url.toList = some pr := by
  unfold is_valid_repo at h
  split at h
  · exact absurd h (by simp)
  · split at h
    · exact absurd h (by simp)
    · split at h
      · rename_i org repo hm
        exact ⟨(org, repo), hm⟩
      · exact absurd h (by simp)

/-- Every character of the scheme-and-host portion of a URL passing
`is_valid_repo` is lowercase (the patterns only accept the literal
lowercase scheme and host). -/
theorem valid_schemeHost_lower (url : String) (h : is_valid_repo url = true) :
    ∀ c ∈ schemeHost url, c.isUpper = false := by
  obtain ⟨pr, hm⟩ := valid_implies_match url h
  unfold schemeHost
  have hgithub : ∀ c ∈ ['g', 'i', 't', 'h', 'u', 'b', '.', 'c', 'o', 'm'], c ≠ '/' := by decide
  have hgitlab : ∀ c ∈ ['g', 'i', 't', 'l', 'a', 'b', '.', 'c', 'o', 'm'], c ≠ '/' := by decide
  have hhf : ∀ c ∈ ['h', 'u', 'g', 'g', 'i', 'n', 'g', 'f', 'a', 'c', 'e', '.', 'c', 'o'],
      c ≠ '/' := by decide
  rcases matchPatterns_inv _ _ hm with h4 | h4 | h4 | h4 <;>
    rcases matchOwnerRepo_shape _ _ _ h4 with ⟨rest, hr⟩ | ⟨rest, hr⟩ <;> rw [hr]
  · rw [show githubHost ++ rest =
        ['g', 'i', 't', 'h', 'u', 'b', '.', 'c', 'o', 'm'] ++ '/' :: rest from by
          simp [githubHost]]
    rw [schemeHostAux_http _ _ hgithub]
    decide
  · rw [show githubHost ++ rest =
        ['g', 'i', 't', 'h', 'u', 'b', '.', 'c', 'o', 'm'] ++ '/' :: rest from by
          simp [githubHost]]
    rw [schemeHostAux_https _ _ hgithub]
    decide
  · rw [show gitlabHost ++ rest =
        ['g', 'i', 't', 'l', 'a', 'b', '.', 'c', 'o', 'm'] ++ '/' :: rest from by
          simp [gitlabHost]]
    rw [schemeHostAux_http _ _ hgitlab]
    decide
  · rw [show gitlabHost ++ rest =
        ['g', 'i', 't', 'l', 'a', 'b', '.', 'c', 'o', 'm'] ++ '/' :: rest from by
          simp [gitlabHost]]
    rw [schemeHostAux_https _ _ hgitlab]
    decide
  · rw [show hfSpacesHost ++ rest =
        ['h', 'u', 'g', 'g', 'i', 'n', 'g', 'f', 'a', 'c', 'e', '.', 'c', 'o'] ++
          '/' :: (['s', 'p', 'a', 'c', 'e', 's', '/'] ++ rest) from by simp [hfSpacesHost]]
    rw [schemeHostAux_http _ _ hhf]
    decide
  · rw [show hfSpacesHost ++ rest =
        ['h', 'u', 'g', 'g', 'i', 'n', 'g', 'f', 'a', 'c', 'e', '.', 'c', 'o'] ++
          '/' :: (['s', 'p', 'a', 'c', 'e', 's', '/'] ++ rest) from by simp [hfSpacesHost]]
    rw [schemeHostAux_https _ _ hhf]
    decide
  · rw [show hfHost ++ rest =
        ['h', 'u', 'g', 'g', 'i', 'n', 'g', 'f', 'a', 'c', 'e', '.', 'c', 'o'] ++
          '/' :: rest from by simp [hfHost]]
    rw [schemeHostAux_http _ _ hhf]
    decide
  · rw [show hfHost ++ rest =
        ['h', 'u', 'g', 'g', 'i', 'n', 'g', 'f', 'a', 'c', 'e', '.', 'c', 'o'] ++
          '/' :: rest from by simp [hfHost]]
    rw [schemeHostAux_https _ _ hhf]
    decide

/-! ## Lemmas about the fetch loop -/

/-- If every remaining attempt raises, the loop exhausts its attempts and
returns failure. -/
theorem fetchFrom_exn (net : Nat → NetResult) :
    ∀ (rem att : Nat), (∀ a, att ≤ a → a < att + rem → net a = NetResult.exn) →
      fetchFrom net att rem = none := by
  intro rem
  induction rem with
  | zero => intro att _; rfl
  | succ n ih =>
    intro att h
    have h0 : net att = NetResult.exn := h att le_rfl (by omega)
    simp only [fetchFrom, h0]
    exact ih (att + 1) (fun a h1 h2 => h a (by omega) (by omega))

/-! ## Lemmas about the run loop -/

/-- Every periodic checkpoint of the loop extends the entry accumulator by
the processed results of an initial segment of the remaining stubs, with the
cursor advanced accordingly. -/
theorem mem_runLoopSaves (pp : Stub → PRec) :
    ∀ (l : List Stub) (i : Nat) (acc : List PRec) (q : Progress),
      q ∈ runLoopSaves pp l i acc →
      ∃ j, 1 ≤ j ∧ j ≤ l.length ∧
        q = { processed := acc ++ (l.take j).map pp, last_index := i + j } := by
  intro l
  induction l with
  | nil => intro i acc q hq; simp [runLoopSaves] at hq
  | cons s rest ih =>
    intro i acc q hq
    simp only [runLoopSaves, List.mem_append] at hq
    rcases hq with hq | hq
    · refine ⟨1, le_rfl, by simp, ?_⟩
      have : q = { processed := acc ++ [pp s], last_index := i + 1 } := by
        by_cases hc : (i + 1) % 10 = 0
        · rw [if_pos hc] at hq
          simpa using hq
        · rw [if_neg hc] at hq
          simp at hq
      rw [this]
      simp
    · obtain ⟨j, hj1, hj2, hj3⟩ := ih (i + 1) (acc ++ [pp s]) q hq
      refine ⟨j + 1, by omega, by simpa using by omega, ?_⟩
      rw [hj3]
      simp only [List.take_succ_cons, List.map_cons, Progress.mk.injEq]
      constructor
      · simp
      · omega

/-- Every durable checkpoint of `run` is either a periodic one or the final
one. -/
theorem mem_run_saves (pp : Stub → PRec) (papers : List Stub) (init : Progress)
    (q : Progress) (hq : q ∈ run_saves pp papers init) :
    (∃ j, 1 ≤ j ∧ j ≤ (papers.drop init.last_index).length ∧
      q = { processed := init.processed.map revalidateRecord ++
              ((papers.drop init.last_index).take j).map pp,
            last_index := init.last_index + j }) ∨
    q = { processed := init.processed.map revalidateRecord ++
            (papers.drop init.last_index).map pp,
          last_index := papers.length } := by
  simp only [run_saves, List.mem_append, List.mem_singleton] at hq
  rcases hq with hq | hq
  · exact Or.inl (mem_runLoopSaves pp _ _ _ q hq)
  · exact Or.inr hq

/-! ## Lemmas about the AAAI title deduplication -/

/-- Deduplication yields a sublist (order preserved, nothing invented). -/
theorem dedupByTitle_sublist : ∀ (l : List Stub) (seen : List String),
    List.Sublist (dedupByTitle l seen) l := by
  intro l
  induction l with
  | nil => intro seen; simp [dedupByTitle]
  | cons s rest ih =>
    intro seen
    simp only [dedupByTitle]
    split
    · exact (ih seen).trans (List.sublist_cons_self s rest)
    · exact (ih (s.title :: seen)).cons₂ s

/-- The titles surviving deduplication are distinct and avoid the seen set. -/
theorem dedupByTitle_nodup : ∀ (l : List Stub) (seen : List String),
    ((dedupByTitle l seen).map Stub.title).Nodup ∧
      ∀ t ∈ (dedupByTitle l seen).map Stub.title, seen.contains t = false := by
  intro l
  induction l with
  | nil => intro seen; simp [dedupByTitle]
  | cons s rest ih =>
    intro seen
    simp only [dedupByTitle]
    split
    · rename_i hc
      refine ⟨(ih seen).1, (ih seen).2⟩
    · rename_i hc
      have h2 := (ih (s.title :: seen)).2
      have hnotmem : s.title ∉ (dedupByTitle rest (s.title :: seen)).map Stub.title := by
        intro hmem
        have := h2 s.title hmem
        simp [List.contains_cons] at this
      constructor
      · simp only [List.map_cons, List.nodup_cons]
        exact ⟨hnotmem, (ih (s.title :: seen)).1⟩
      · intro t ht
        simp only [List.map_cons, List.mem_cons] at ht
        rcases ht with ht | ht
        · subst ht
          simpa using hc
        · have := h2 t ht
          simp only [List.contains_cons, Bool.or_eq_false_iff] at this
          exact this.2

/-- Membership among the surviving titles. -/
theorem dedupByTitle_mem : ∀ (l : List Stub) (seen : List String) (t : String),
    t ∈ (dedupByTitle l seen).map Stub.title ↔
      t ∈ l.map Stub.title ∧ seen.contains t = false := by
  intro l
  induction l with
  | nil => intro seen t; simp [dedupByTitle]
  | cons s rest ih =>
    intro seen t
    simp only [dedupByTitle]
    split
    · rename_i hc
      rw [ih seen t]
      simp only [List.map_cons, List.mem_cons]
      constructor
      · rintro ⟨hm, hs⟩
        exact ⟨Or.inr hm, hs⟩
      · rintro ⟨hm, hs⟩
        rcases hm with hm | hm
        · subst hm
          rw [hc] at hs
          cases hs
        · exact ⟨hm, hs⟩
    · rename_i hc
      simp only [List.map_cons, List.mem_cons]
      rw [ih (s.title :: seen) t]
      simp only [List.contains_cons, Bool.or_eq_false_iff]
      constructor
      · rintro (ht | ⟨hm, hbeq, hs⟩)
        · subst ht
          exact ⟨Or.inl rfl, by simpa using hc⟩
        · exact ⟨Or.inr hm, hs⟩
      · rintro ⟨hm | hm, hs⟩
        · exact Or.inl hm
        · by_cases hts : t = s.title
          · exact Or.inl hts
          · refine Or.inr ⟨hm, ?_, hs⟩
            simpa using hts

/-! ## Lemmas about the CSV field escaping -/

/-- Quote doubling doubles the number of quotes. -/
theorem escQuotes_count_q : ∀ l : List Char,
    (escQuotes l).count (Char.ofNat 34) = 2 * l.count (Char.ofNat 34) := by
  intro l
  induction l with
  | nil => simp [escQuotes]
  | cons c r ih =>
    simp only [escQuotes]
    split
    · rename_i hc
      subst hc
      simp [List.count_cons, ih]
      omega
    · rename_i hc
      simp [List.count_cons, ih, hc]

/-- Quote doubling leaves any other character count unchanged. -/
theorem escQuotes_count_other (x : Char) (hx : x ≠ Char.ofNat 34) : ∀ l : List Char,
    (escQuotes l).count x = l.count x := by
  intro l
  induction l with
  | nil => rfl
  | cons c r ih =>
    simp only [escQuotes]
    split
    · rename_i hc
      subst hc
      simp [List.count_cons, ih, hx]
    · simp [List.count_cons, ih]

/-- Comma substitution leaves no comma behind. -/
theorem commaToSemi_count_comma : ∀ l : List Char, (commaToSemi l).count ',' = 0 := by
  intro l
  induction l with
  | nil => rfl
  | cons c r ih =>
    simp only [commaToSemi]
    split
    · simp [List.count_cons, ih]
    · rename_i hc
      simp [List.count_cons, ih, hc]

/-- Comma substitution turns every comma into one more semicolon. -/
theorem commaToSemi_count_semi : ∀ l : List Char,
    (commaToSemi l).count ';' = l.count ';' + l.count ',' := by
  intro l
  induction l with
  | nil => rfl
  | cons c r ih =>
    simp only [commaToSemi]
    split
    · rename_i hc
      subst hc
      simp [List.count_cons, ih]
      omega
    · rename_i hc
      by_cases hs : c = ';'
      · subst hs
        simp [List.count_cons, ih, hc]
        omega
      · simp [List.count_cons, ih, hc, hs]

/-- Comma substitution preserves characters other than comma and
semicolon. -/
theorem commaToSemi_count_other (x : Char) (hx1 : x ≠ ',') (hx2 : x ≠ ';') :
    ∀ l : List Char, (commaToSemi l).count x = l.count x := by
  intro l
  induction l with
  | nil => rfl
  | cons c r ih =>
    simp only [commaToSemi]
    split
    · rename_i hc
      subst hc
      simp [List.count_cons, ih, hx1, hx2]
    · simp [List.count_cons, ih]

/-! ## Claims -/

/-- C1: for every input text, if `extract_code_url` returns a URL then
`is_valid_repo` holds for that URL — the extractor validates every candidate
before returning it. -/
theorem C1_extract_only_valid (text u : String) (h : extract_code_url text = some u) :
    is_valid_repo u = true :=
  extract_code_url_valid_aux text u h

/-- Witness for C1 at a concrete text. -/
theorem C1_extract_only_valid_witness :
    extract_code_url "Our code is available at https://github.com/acme/widget." =
      some "https://github.com/acme/widget" ∧
    is_valid_repo "https://github.com/acme/widget" = true :=
  ⟨by decide, C1_extract_only_valid "Our code is available at https://github.com/acme/widget."
      "https://github.com/acme/widget" (by decide)⟩

/-- C2 as stated is false: `save_progress` opens the checkpoint file in
truncating write mode and writes in place, so there are crash points at
which the durable content is neither the previous state nor the new one —
the file is empty right after the open — and loading such a state does not
yield the prior consistent state: `json.load` raises on the truncated
file instead of returning the previous checkpoint dict. -/
theorem C2_counterexample :
    (¬ ∀ s ∈ save_progress_states (some oldCkpt) newCkpt,
        s = some oldCkpt ∨ s = some newCkpt) ∧
    ¬ ∀ s ∈ save_progress_states (some oldCkpt) newCkpt,
        load_progress s = load_progress (some oldCkpt) := by
  constructor
  · decide
  · intro hall
    have h1 := hall (some "") (by simp [save_progress_states])
    have h2 : load_progress (some "") = none := rfl
    have h3 : (load_progress (some oldCkpt)).isSome = true := rfl
    rw [h1] at h2
    rw [h2] at h3
    exact absurd h3 (by decide)

/-- C2 amended: a crash immediately after the truncating open leaves the
checkpoint file empty, and a later crash leaves a proper prefix of the new
text; some intermediate durable state therefore differs from both the
previous content and the completed new content, so the save is not atomic,
and loading the post-truncate state raises (`json.load` of an empty file)
rather than yielding the prior parseable state.  The new content is
reached only when the write runs to completion. -/
theorem C2_amended (old : Option String) (data : String)
    (h1 : old ≠ some "") (h2 : data ≠ "") (h3 : load_progress old ≠ none) :
    (some "" ∈ save_progress_states old data ∧
      some data ∈ save_progress_states old data ∧
      ∃ s ∈ save_progress_states old data, s ≠ old ∧ s ≠ some data) ∧
    load_progress (some "") = none ∧
    load_progress (some "") ≠ load_progress old := by
  refine ⟨?_, rfl, fun he => h3 he.symm⟩
  have hmem : some "" ∈ save_progress_states old data := by
    simp [save_progress_states]
  refine ⟨hmem, ?_, some "", hmem, fun he => h1 he.symm, fun he => h2 (by
    have := Option.some.inj he
    exact this.symm)⟩
  have hlen : 0 < data.length := by
    cases data with
    | mk l =>
      cases l with
      | nil => exact absurd rfl h2
      | cons c t => simp [String.length]
  have hfull : String.mk (data.toList.take (data.length - 1 + 1)) = data := by
    have : data.length - 1 + 1 = data.length := by omega
    rw [this]
    cases data with
    | mk l => simp [String.toList, String.length]
  simp only [save_progress_states, List.mem_cons]
  right; right
  exact List.mem_map.mpr ⟨data.length - 1, List.mem_range.mpr (by omega), by rw [hfull]⟩

/-- Witness for the amended C2 at the concrete serialized checkpoints. -/
theorem C2_amended_witness :
    (some "" ∈ save_progress_states (some oldCkpt) newCkpt ∧
      some newCkpt ∈ save_progress_states (some oldCkpt) newCkpt ∧
      ∃ s ∈ save_progress_states (some oldCkpt) newCkpt,
        s ≠ some oldCkpt ∧ s ≠ some newCkpt) ∧
    load_progress (some "") = none ∧
    load_progress (some "") ≠ load_progress (some oldCkpt) :=
  C2_amended (some oldCkpt) newCkpt (by decide) (by decide) (fun h => by
    have hs : (load_progress (some oldCkpt)).isSome = true := rfl
    rw [h] at hs
    exact absurd hs (by decide))

/-- Resuming from a checkpoint holding the processed results of a listing
initial segment reproduces the fresh-run result, provided revalidation fixes
the extractor's outputs (unchanged validity rules: stored URLs were accepted
when stored, so they still pass). -/
theorem run_result_of_initial_segment (pp : Stub → PRec) (papers : List Stub) (j : Nat)
    (hfix : ∀ s, revalidateRecord (pp s) = pp s) :
    run_result pp papers { processed := (papers.take j).map pp, last_index := j } =
      run_result pp papers { processed := [], last_index := 0 } := by
  unfold run_result
  have h1 : ((papers.take j).map pp).map revalidateRecord = (papers.take j).map pp := by
    rw [List.map_map]
    exact List.map_congr_left (fun s _ => hfix s)
  simp only [h1, List.map_nil, List.nil_append, List.drop_zero]
  rw [← List.map_append, List.take_append_drop]

/-- C3: running the pipeline to completion after loading any checkpoint
saved by a fresh run over the same listing yields the same final progress
state and the same final output table as the uninterrupted fresh run; the
checkpoint saved at termination (idempotent re-run) is one such
checkpoint.  The hypothesis `hfix` states that revalidation does not change
the extractor's records, which holds whenever the extractor only stores
URLs passing the unchanged validity rules (spec invariant on
`PaperRecord.code_url`). -/
theorem C3_resume_reproduces_fresh_run (pp : Stub → PRec) (papers : List Stub)
    (ckpt : Progress) (hfix : ∀ s, revalidateRecord (pp s) = pp s)
    (hmem : ckpt ∈ run_saves pp papers { processed := [], last_index := 0 }) :
    run_result pp papers ckpt = run_result pp papers { processed := [], last_index := 0 } ∧
    save_csv (run_result pp papers ckpt).processed =
      save_csv (run_result pp papers { processed := [], last_index := 0 }).processed := by
  have heq : run_result pp papers ckpt =
      run_result pp papers { processed := [], last_index := 0 } := by
    rcases mem_run_saves pp papers _ ckpt hmem with ⟨j, _, _, hj3⟩ | hj3
    · simp only [List.map_nil, List.nil_append, List.drop_zero, Nat.zero_add] at hj3
      rw [hj3]
      exact run_result_of_initial_segment pp papers j hfix
    · simp only [List.map_nil, List.nil_append, List.drop_zero] at hj3
      rw [hj3, show papers.map pp = (papers.take papers.length).map pp from by
        rw [List.take_length]]
      exact run_result_of_initial_segment pp papers papers.length hfix
  exact ⟨heq, by rw [heq]⟩

/-- Witness for C3: a completed one-record run, resumed from its final
checkpoint. -/
theorem C3_resume_reproduces_fresh_run_witness :
    run_result ppX papersW ckptW = run_result ppX papersW { processed := [], last_index := 0 } :=
  (C3_resume_reproduces_fresh_run ppX papersW ckptW (fun _ => rfl) (by decide)).1

/-- C4 as stated is false: a checkpoint satisfying
`last_index == len(processed)` but whose cursor exceeds the (changed,
shorter) listing leads the final save to store `last_index = len(papers)`
while keeping the longer processed list, breaking the equality. -/
theorem C4_counterexample :
    ({ processed := [prX], last_index := 1 } : Progress).last_index = [prX].length ∧
    ¬ ∀ q ∈ run_saves ppX [] { processed := [prX], last_index := 1 },
        q.last_index = q.processed.length := by
  decide

/-- C4 amended: if the loaded checkpoint satisfies
`last_index == len(processed)` and additionally its cursor does not exceed
the listing length, then every durable save point of the run satisfies
`last_index == len(processed)`. -/
theorem C4_amended (pp : Stub → PRec) (papers : List Stub) (init : Progress)
    (h1 : init.last_index = init.processed.length)
    (h2 : init.last_index ≤ papers.length) :
    ∀ q ∈ run_saves pp papers init, q.last_index = q.processed.length := by
  intro q hq
  rcases mem_run_saves pp papers init q hq with ⟨j, hj1, hj2, hj3⟩ | hj3
  · subst hj3
    simp only [List.length_append, List.length_map, List.length_take, List.length_drop] at *
    omega
  · subst hj3
    simp only [List.length_append, List.length_map, List.length_drop]
    omega

/-- Witness for the amended C4: a fresh run over a 23-stub listing flushes
at 10, 20 and at termination, each time with cursor equal to the processed
length. -/
theorem C4_amended_witness :
    (run_saves ppX papers23 { processed := [], last_index := 0 }).all
      (fun q => q.last_index == q.processed.length) = true :=
  List.all_eq_true.mpr (fun q hq => beq_iff_eq.mpr
    (C4_amended ppX papers23 { processed := [], last_index := 0 } rfl (by simp [papers23])
      q hq))

/-- C5 as stated is false: the run loop itself performs no deduplication,
so a listing carrying two stubs with the same title yields two records with
that title. -/
theorem C5_counterexample :
    (run_result ppX [stubA, stubB] { processed := [], last_index := 0 }).processed.map
        PRec.title = [some "Same Title", some "Same Title"] ∧
    ¬ ((run_result ppX [stubA, stubB] { processed := [], last_index := 0 }).processed.map
        PRec.title).Nodup := by
  decide

/-- C5 amended: one record per distinct title (insertion order preserved)
holds for the listing the AAAI producer returns, because its final
deduplication step keeps exactly the first stub of each title; the run loop
then appends one record per stub, and the extractor preserves titles. -/
theorem C5_amended (pp : Stub → PRec) (l : List Stub)
    (htitle : ∀ s, (pp s).title = some s.title) :
    ((run_result pp (dedupByTitle l []) { processed := [], last_index := 0 }).processed.map
        PRec.title).Nodup ∧
    (∀ t, some t ∈ (run_result pp (dedupByTitle l [])
        { processed := [], last_index := 0 }).processed.map PRec.title ↔
      t ∈ l.map Stub.title) ∧
    List.Sublist ((run_result pp (dedupByTitle l [])
        { processed := [], last_index := 0 }).processed.map PRec.title)
      (l.map (fun s => some s.title)) := by
  have hps : (run_result pp (dedupByTitle l []) { processed := [], last_index := 0 }).processed
      = (dedupByTitle l []).map pp := by
    simp [run_result]
  have hmap : ((dedupByTitle l []).map pp).map PRec.title =
      ((dedupByTitle l []).map Stub.title).map some := by
    rw [List.map_map, List.map_map]
    exact List.map_congr_left (fun s _ => htitle s)
  refine ⟨?_, ?_, ?_⟩
  · rw [hps, hmap]
    exact ((dedupByTitle_nodup l []).1).map (Option.some_injective _)
  · intro t
    rw [hps, hmap, List.mem_map_of_injective (Option.some_injective _),
      dedupByTitle_mem l [] t]
    simp
  · rw [hps, hmap, show l.map (fun s => some s.title) = (l.map Stub.title).map some from by
      rw [List.map_map]; rfl]
    exact ((dedupByTitle_sublist l []).map Stub.title).map some

/-- Witness for the amended C5: the duplicate-title listing, deduplicated
as by the AAAI producer, yields distinct titles. -/
theorem C5_amended_witness :
    ((run_result ppX (dedupByTitle [stubA, stubB] [])
        { processed := [], last_index := 0 }).processed.map PRec.title).Nodup :=
  (C5_amended ppX [stubA, stubB] (fun _ => rfl)).1

/-- C6 as stated is false: `gitlab.com` with the platform's own name as
owner is accepted — `gitlab` is neither in the deny-list nor among the
generic owner names. -/
theorem C6_counterexample : is_valid_repo "https://gitlab.com/gitlab/x" = true := by
  decide

/-- C6 amended: the generic reserved owner names (`docs`, `blog`, `api`,
`hub`, `join`, and `huggingface`) are rejected on every supported host, and
the platform's own name as owner is rejected for `github.com` and
`huggingface.co` through the deny-list — but `gitlab.com/gitlab/x` passes
the validity predicate. -/
theorem C6_amended (url u2 u3 org repo : String) :
    (matchPatterns url.toList = some (org, repo) →
      genericOrgs.contains (pyLower org) = true → is_valid_repo url = false) ∧
    (hasSub ("github.com/github".toList) (pyLower u2).toList = true →
      is_valid_repo u2 = false) ∧
    (hasSub ("huggingface.co/huggingface".toList) (pyLower u3).toList = true →
      is_valid_repo u3 = false) ∧
    is_valid_repo "https://gitlab.com/gitlab/x" = true := by
  refine ⟨fun hm hg => generic_org_invalid url org repo hm hg,
    fun h => reject_sub_invalid u2 "github.com/github" (by decide) h,
    fun h => reject_sub_invalid u3 "huggingface.co/huggingface" (by decide) h,
    by decide⟩

/-- Witness for the amended C6 at concrete URLs. -/
theorem C6_amended_witness :
    is_valid_repo "https://github.com/docs/getting-started" = false ∧
    is_valid_repo "https://github.com/github/widget" = false ∧
    is_valid_repo "https://huggingface.co/huggingface/x" = false ∧
    is_valid_repo "https://gitlab.com/gitlab/x" = true :=
  ⟨(C6_amended "https://github.com/docs/getting-started" "" "" "docs" "getting-started").1
      (by decide) (by decide),
    (C6_amended "" "https://github.com/github/widget" "" "" "").2.1 (by decide),
    (C6_amended "" "" "https://huggingface.co/huggingface/x" "" "").2.2.1 (by decide),
    (C6_amended "" "" "" "" "").2.2.2⟩

/-- C7 as stated is false: the fetch layer decodes every received body with
`errors='replace'`, so an undecodable body is returned as content (with
replacement characters) on the first attempt instead of being retried and
turned into failure. -/
theorem C7_counterexample :
    utf8Decodable [255] = false ∧
    fetch_url (fun _ => NetResult.ok [255]) 3 = some (String.mk [replChar]) ∧
    fetch_url (fun _ => NetResult.ok [255]) 3 ≠ none := by
  refine ⟨by decide, by decide, by decide⟩

/-- C7 amended: transport exceptions are retried up to the attempt bound and
exhaustion yields failure (`None`), but any received body — decodable or
not — is decoded with replacement characters and returned as success on
that attempt. -/
theorem C7_amended (net : Nat → NetResult) (retries : Nat) :
    ((∀ a, a < retries → net a = NetResult.exn) → fetch_url net retries = none) ∧
    (∀ body, net 0 = NetResult.ok body → 0 < retries →
      fetch_url net retries = some (utf8DecodeReplace body)) := by
  constructor
  · intro h
    exact fetchFrom_exn net retries 0 (fun a _ h2 => h a (by omega))
  · intro body h hr
    unfold fetch_url
    cases retries with
    | zero => omega
    | succ n => simp [fetchFrom, h]

/-- Witness for the amended C7. -/
theorem C7_amended_witness :
    fetch_url (fun _ => NetResult.exn) 3 = none ∧
    fetch_url (fun _ => NetResult.ok [104, 105]) 3 = some (utf8DecodeReplace [104, 105]) :=
  ⟨(C7_amended (fun _ => NetResult.exn) 3).1 (fun _ _ => rfl),
    (C7_amended (fun _ => NetResult.ok [104, 105]) 3).2 [104, 105] rfl (by omega)⟩

/-- C8: a record whose page fetch raises on all 3 attempts is returned by
`CVPR2025Fetcher.process_paper` with the fetch-failed marker and no code
URL, and the run loop appends it and processes every following stub, ending
with the full listing length as cursor. -/
theorem C8_fetch_failed_non_fatal (net : String → Nat → NetResult)
    (extract : String → Stub → PRec) (paper : Stub) (rest : List Stub)
    (hfail : ∀ a, a < 3 → net (cvprBase ++ paper.page_url) a = NetResult.exn) :
    (cvpr_process_paper net extract paper).status = RecStatus.fetch_failed ∧
    (cvpr_process_paper net extract paper).code_url = none ∧
    (run_result (cvpr_process_paper net extract) (paper :: rest)
        { processed := [], last_index := 0 }).processed =
      cvpr_process_paper net extract paper :: rest.map (cvpr_process_paper net extract) ∧
    (run_result (cvpr_process_paper net extract) (paper :: rest)
        { processed := [], last_index := 0 }).last_index = rest.length + 1 := by
  have hnone : fetch_url (net (cvprBase ++ paper.page_url)) 3 = none :=
    fetchFrom_exn _ 3 0 (fun a _ h2 => hfail a (by omega))
  have hrec : cvpr_process_paper net extract paper =
      { title := some paper.title, page_url := some paper.page_url,
        error := some "fetch failed" } := by
    unfold cvpr_process_paper
    rw [hnone]
  refine ⟨by rw [hrec]; rfl, by rw [hrec], ?_, by simp [run_result]⟩
  simp [run_result]

/-- Witness for C8: a network on which every attempt raises. -/
theorem C8_fetch_failed_non_fatal_witness :
    (cvpr_process_paper netExn extractNone stubA).status = RecStatus.fetch_failed ∧
    (cvpr_process_paper netExn extractNone stubA).code_url = none :=
  ⟨(C8_fetch_failed_non_fatal netExn extractNone stubA [] (fun _ _ => rfl)).1,
    (C8_fetch_failed_non_fatal netExn extractNone stubA [] (fun _ _ => rfl)).2.1⟩

/-- C9: for a record obeying the PaperRecord invariant (a stored URL passed
validation, hence is non-empty), the written `code_available` field is
`yes` iff `code_url` is present, `maybe` iff it is absent but the mention
flag is set, and `no` otherwise; and the title written by `csv_row` has all
commas replaced by semicolons (none survive) while every quote is doubled. -/
theorem C9_row_semantics (p : PRec) (s : String)
    (hinv : ∀ u, p.code_url = some u → is_valid_repo u = true) :
    (code_available p = "yes" ↔ p.code_url.isSome = true) ∧
    (code_available p = "maybe" ↔
      (p.code_url.isSome = false ∧ p.code_mentioned.getD false = true)) ∧
    (code_available p = "no" ↔
      (p.code_url.isSome = false ∧ p.code_mentioned.getD false = false)) ∧
    (titleEscaped s).count ',' = 0 ∧
    (titleEscaped s).count (Char.ofNat 34) = 2 * s.toList.count (Char.ofNat 34) ∧
    (titleEscaped s).count ';' = s.toList.count ';' + s.toList.count ',' := by
  have hesc1 : (titleEscaped s).count ',' = 0 := by
    unfold titleEscaped
    exact commaToSemi_count_comma _
  have hesc2 : (titleEscaped s).count (Char.ofNat 34) = 2 * s.toList.count (Char.ofNat 34) := by
    unfold titleEscaped
    rw [commaToSemi_count_other (Char.ofNat 34) (by decide) (by decide)]
    exact escQuotes_count_q _
  have hesc3 : (titleEscaped s).count ';' = s.toList.count ';' + s.toList.count ',' := by
    unfold titleEscaped
    rw [commaToSemi_count_semi, escQuotes_count_other ';' (by decide),
      escQuotes_count_other ',' (by decide)]
  cases hcu : p.code_url with
  | none =>
    by_cases hcm : p.code_mentioned.getD false = true
    · simp [code_available, hcu, hcm, hesc1, hesc2, hesc3]
    · simp [code_available, hcu, hcm, hesc1, hesc2, hesc3]
  | some u =>
    have hu : u ≠ "" := by
      intro he
      have hv := hinv u hcu
      rw [he] at hv
      exact absurd hv (by decide)
    simp [code_available, hcu, hu, hesc1, hesc2, hesc3]

/-- Witness for C9 at a concrete record and title. -/
theorem C9_row_semantics_witness :
    code_available p1 = "yes" ∧ (titleEscaped "a,b").count ',' = 0 :=
  ⟨(C9_row_semantics p1 "a,b" (fun u hu => by
      rw [← Option.some.inj hu]; decide)).1.mpr (by decide),
    (C9_row_semantics p1 "a,b" (fun u hu => by
      rw [← Option.some.inj hu]; decide)).2.2.2.1⟩

/-- C10: a URL with an uppercase letter in its scheme-and-host portion never
passes `is_valid_repo` (the anchored patterns require the literal lowercase
scheme and host), so `extract_code_url` never returns such a URL — even
though the case-insensitive candidate scan can pick it up, as it does for
`HTTPS://GitHub.com/acme/widget`, whose fully lowercased form is valid. -/
theorem C10_uppercase_scheme_host_rejected (url text : String) :
    ((∃ c ∈ schemeHost url, c.isUpper = true) → is_valid_repo url = false) ∧
    (extract_code_url text = some url → ∀ c ∈ schemeHost url, c.isUpper = false) ∧
    is_valid_repo "HTTPS://GitHub.com/acme/widget" = false ∧
    is_valid_repo (pyLower "HTTPS://GitHub.com/acme/widget") = true ∧
    scanMatches githubHost ("see HTTPS://GitHub.com/acme/widget".toList) ≠ [] ∧
    extract_code_url "see HTTPS://GitHub.com/acme/widget" = none := by
  refine ⟨?_, ?_, by decide, by decide, by decide, by decide⟩
  · rintro ⟨c, hc, hu⟩
    cases hb : is_valid_repo url with
    | false => rfl
    | true =>
      have := valid_schemeHost_lower url hb c hc
      rw [hu] at this
      exact absurd this (by decide)
  · intro he
    exact valid_schemeHost_lower url (extract_code_url_valid_aux text url he)

/-- Witness for C10 at the concrete mixed-case URL. -/
theorem C10_uppercase_scheme_host_rejected_witness :
    is_valid_repo "HTTPS://GitHub.com/acme/widget" = false ∧
    extract_code_url "see HTTPS://GitHub.com/acme/widget" = none :=
  ⟨(C10_uppercase_scheme_host_rejected "HTTPS://GitHub.com/acme/widget" "").1
      ⟨'H', by decide, by decide⟩,
    (C10_uppercase_scheme_host_rejected "" "see HTTPS://GitHub.com/acme/widget").2.2.2.2.2⟩
